import Mathlib

/-!
Verification of the safe_network repository's specified core subsystems.

The repository's Python sources under study are thin wrapper scripts: the
self-encrypting chunk codec and the Kademlia-style routing table that the
specification describes live behind the `autonomi_client` / `antnode` native
bindings, so those two subsystems are modelled here directly from the
specification's contracts (each such definition carries a doc comment that
starts with `Modelled from the spec:`).  The release/maintenance scripts
(`has_breaking_change`, `read_commits_from_file`, `find_prs.py main`) are
real Python code in the repository and are embedded faithfully from their
sources.

Conventions: bytes are `Nat` values `< 256`; byte strings are `List Nat`;
hashes, keys and addresses are `Nat`.
-/

/-- A byte string is valid when every element is an actual byte. -/
def ValidBytes (l : List Nat) : Prop := ∀ b ∈ l, b < 256

instance (l : List Nat) : Decidable (ValidBytes l) := by
  unfold ValidBytes; infer_instance

/-- Modelled from the spec: the cryptographic content hash (spec section 3,
`ContentAddress`).  The spec idealises the 256-bit hash as collision-free
("globally unique by construction; collision = identical content"), so the
model uses an injective-on-byte-strings encoding: base-257 positional
encoding of the bytes. -/
def hashBytes : List Nat → Nat
  | [] => 1
  | b :: bs => b + 1 + 257 * hashBytes bs

/-- Modelled from the spec: the deterministic key-derivation hash function of
spec section 4.2 step 2 — `(key_i, iv_i)` is derived from the plaintext
hashes of the previous and next chunk only.  `Nat.pair` serves as the
idealised (injective, deterministic) combining hash. -/
def deriveKeyIv (prevHash nextHash : Nat) : Nat × Nat :=
  (Nat.pair prevHash nextHash, Nat.pair nextHash prevHash)

/-- Modelled from the spec: the cyclic previous-neighbor index `i - 1` taken
modulo the chunk count `n` (spec section 9). -/
def prevIndex (n i : Nat) : Nat := (i + n - 1) % n

/-- Modelled from the spec: the cyclic next-neighbor index `i + 1` taken
modulo the chunk count `n` (spec section 9). -/
def nextIndex (n i : Nat) : Nat := (i + 1) % n

/-- Modelled from the spec: key/iv for chunk `i` given the list of plaintext
hashes, with neighbor indices taken modulo the chunk count (spec sections
4.2 and 9: "indices modulo chunk count", chunk 0 and chunk n-1 neighbors). -/
def neighborKeyIv (phs : List Nat) (i : Nat) : Nat × Nat :=
  deriveKeyIv (phs.getD (prevIndex phs.length i) 0) (phs.getD (nextIndex phs.length i) 0)

/-- Modelled from the spec: deterministic keystream byte `j` of the stream
cipher keyed by `(key, iv)` (spec section 4.2 step 3, "Encrypt RawChunk i
under (key_i, iv_i)"). -/
def keystream (key iv j : Nat) : Nat := (key + (j + 1) * (iv + 1)) % 256

/-- Modelled from the spec: encryption of a byte string under `(key, iv)`,
starting at keystream position `j`. -/
def encryptFrom (key iv : Nat) : Nat → List Nat → List Nat
  | _, [] => []
  | j, b :: bs => (b + keystream key iv j) % 256 :: encryptFrom key iv (j + 1) bs

/-- Modelled from the spec: decryption, the inverse of `encryptFrom` (spec
section 4.2: "Decryption reverses step 3 using the same neighbor-hash
derivation"). -/
def decryptFrom (key iv : Nat) : Nat → List Nat → List Nat
  | _, [] => []
  | j, c :: cs => (c + 256 - keystream key iv j) % 256 :: decryptFrom key iv (j + 1) cs

/-- Modelled from the spec: minimum chunk count (spec section 4.1: "a minimum
chunk count (3, required so key-derivation in 4.2 has enough neighbors)"). -/
def minChunkCount : Nat := 3

/-- Modelled from the spec: maximum chunk size bound of the target chunk-size
range (spec section 4.1). -/
def maxChunkSize : Nat := 1024

/-- Modelled from the spec: the minimum chunkable payload size — the smallest
payload for which all three mandatory chunks are non-empty. -/
def minChunkableSize : Nat := 3

/-- Modelled from the spec: number of chunks for a payload of the given size —
at least `minChunkCount`, and enough chunks that each stays within
`maxChunkSize` (spec section 4.1). -/
def chunkCount (size : Nat) : Nat :=
  max minChunkCount ((size + maxChunkSize - 1) / maxChunkSize)

/-- Modelled from the spec: chunk boundary `i` for splitting `size` bytes into
`n` chunks, "computed by even division of total size by chunk count" (spec
section 4.1). -/
def chunkBound (size n i : Nat) : Nat := i * size / n

/-- Modelled from the spec: the ordered chunk sequence, chunk `i` being the
byte range from boundary `i` (inclusive) to boundary `i+1` (exclusive). -/
def chunkSlices (p : List Nat) (n : Nat) : List (List Nat) :=
  (List.range n).map (fun i =>
    (p.drop (chunkBound p.length n i)).take (chunkBound p.length n (i + 1) - chunkBound p.length n i))

/-- Error signalled by the chunker (spec sections 4.1 and 7). -/
inductive ChunkError
  | emptyInputError
  deriving DecidableEq

/-- Modelled from the spec: the Chunker (spec section 4.1) — rejects empty
payloads with `EmptyInputError`, otherwise splits the payload into
`chunkCount` even-division chunks. -/
def chunkPayload (p : List Nat) : Except ChunkError (List (List Nat)) :=
  if p.isEmpty then .error .emptyInputError
  else .ok (chunkSlices p (chunkCount p.length))

/-- Modelled from the spec: one DataMap entry
`{plaintext_hash, plaintext_size, encrypted_chunk_address}` (spec section 3). -/
structure DataMapEntry where
  plaintextHash : Nat
  plaintextSize : Nat
  address : Nat
  deriving DecidableEq

/-- Modelled from the spec: a DataMap — an ordered sequence of entries, one
per RawChunk, in original-payload order (spec section 3). -/
structure DataMap where
  entries : List DataMapEntry
  deriving DecidableEq

/-- Modelled from the spec: key/iv for chunk `i` of a chunk sequence — derived
from the plaintext hashes of its cyclic neighbors (spec section 4.2). -/
def chunkKeyIv (chunks : List (List Nat)) (i : Nat) : Nat × Nat :=
  neighborKeyIv (chunks.map hashBytes) i

/-- Modelled from the spec: the encrypted bytes of chunk `i` (spec section
4.2 step 3). -/
def cipherOf (chunks : List (List Nat)) (i : Nat) : List Nat :=
  encryptFrom (chunkKeyIv chunks i).1 (chunkKeyIv chunks i).2 0 (chunks.getD i [])

/-- Modelled from the spec: the SelfEncryptor's encrypted chunk sequence. -/
def selfEncryptChunks (chunks : List (List Nat)) : List (List Nat) :=
  (List.range chunks.length).map (cipherOf chunks)

/-- Modelled from the spec: DataMap entry `i` —
`{plaintext_hash[i], plaintext_size[i], address[i]}` with the address being
the hash of the ciphertext (spec section 4.2 step 4). -/
def dataMapEntryOf (chunks : List (List Nat)) (i : Nat) : DataMapEntry :=
  ⟨hashBytes (chunks.getD i []), (chunks.getD i []).length, hashBytes (cipherOf chunks i)⟩

/-- Modelled from the spec: the DataMap emitted by the SelfEncryptor, entries
in original-payload order (spec section 4.2 step 4). -/
def dataMapOf (chunks : List (List Nat)) : DataMap :=
  ⟨(List.range chunks.length).map (dataMapEntryOf chunks)⟩

/-- Modelled from the spec: `upload(bytes) -> DataMap` (spec section 6),
composed of Chunker then SelfEncryptor; also returns the encrypted chunks
that the network would store. -/
def upload (p : List Nat) : Except ChunkError (DataMap × List (List Nat)) :=
  (chunkPayload p).map (fun chunks => (dataMapOf chunks, selfEncryptChunks chunks))

/-- Error raised when decode fails (spec section 7: `ReconstructionError`). -/
inductive ReconstructionError
  | reconstructionError
  deriving DecidableEq

/-- Modelled from the spec: sequential failover over fetch candidates for one
chunk (spec sections 4.6 and 7): each candidate peer is asked for the entry's
address; a fetched chunk is decrypted and verified against the entry's stored
plaintext hash and size; a miss or mismatch moves on to the next candidate. -/
def tryCandidates (fetchers : List (Nat → Option (List Nat))) (e : DataMapEntry)
    (key iv : Nat) : Option (List Nat) :=
  match fetchers with
  | [] => none
  | f :: rest =>
    match f e.address with
    | none => tryCandidates rest e key iv
    | some cbytes =>
      let plain := decryptFrom key iv 0 cbytes
      if hashBytes plain == e.plaintextHash && plain.length == e.plaintextSize then some plain
      else tryCandidates rest e key iv

/-- Modelled from the spec: decode loop over the DataMap entries, carrying the
absolute entry index `i` for neighbor-hash key derivation; exhausting the
candidates of any single entry aborts with `ReconstructionError` (spec
section 7). -/
def downloadFrom (fetchers : List (Nat → Option (List Nat))) (phs : List Nat) :
    Nat → List DataMapEntry → Except ReconstructionError (List Nat)
  | _, [] => .ok []
  | i, e :: rest =>
    match tryCandidates fetchers e (neighborKeyIv phs i).1 (neighborKeyIv phs i).2 with
    | none => .error .reconstructionError
    | some plain =>
      match downloadFrom fetchers phs (i + 1) rest with
      | .ok tailBytes => .ok (plain ++ tailBytes)
      | .error err => .error err

/-- Modelled from the spec: `download(DataMap) -> bytes or ReconstructionError`
(spec section 6) — the neighbor plaintext hashes needed for key derivation
are read from the DataMap itself (spec section 4.2). -/
def download (dm : DataMap) (fetchers : List (Nat → Option (List Nat))) :
    Except ReconstructionError (List Nat) :=
  downloadFrom fetchers (dm.entries.map (fun e => e.plaintextHash)) 0 dm.entries

/-- Modelled from the spec: a content-addressed fetch source backed by a list
of stored encrypted chunks (spec section 4.4 `ChunkStore` get semantics). -/
def storeFetcher (store : List (List Nat)) : Nat → Option (List Nat) :=
  fun addr => store.find? (fun c => hashBytes c == addr)

/-- Default DataMap entry used with `List.getD`. -/
def defaultEntry : DataMapEntry := ⟨0, 0, 0⟩

/-- Modelled from the spec: the key/iv the decoder derives for entry `i` of a
DataMap, from the neighbor plaintext hashes stored in the DataMap itself
(spec section 4.2). -/
def entryKeyIv (dm : DataMap) (i : Nat) : Nat × Nat :=
  neighborKeyIv (dm.entries.map (fun e => e.plaintextHash)) i

/-- Modelled from the spec: the bucket capacity K (spec section 3: "Each
bucket holds at most K peer records"; the concrete scenario of section 8
uses K = 20). -/
def K : Nat := 20

/-- Modelled from the spec: the number of buckets B for the fixed-width
256-bit identifier space (spec section 3). -/
def B : Nat := 256

/-- Modelled from the spec: the per-node routing table (spec section 4.5) —
buckets of known peer ids indexed by distance from the local node id; each
bucket list is kept least-recently-seen first. -/
structure RoutingTable where
  localId : Nat
  buckets : Nat → List Nat

/-- Modelled from the spec: a fresh routing table with all buckets empty. -/
def emptyTable (localId : Nat) : RoutingTable := ⟨localId, fun _ => []⟩

/-- Modelled from the spec: bucket index of a peer — floor(log2(XOR
distance)) from the local id (spec section 3). -/
def bucketIndex (localId peerId : Nat) : Nat := Nat.log2 (localId ^^^ peerId)

/-- Modelled from the spec: `observe(peer)` (spec section 4.5) — inserts or
refreshes a peer in the bucket matching its distance; on a full bucket the
least-recently-seen entry (the head) is probed: if unresponsive it is
evicted and replaced, otherwise the new peer is dropped.
`lrsResponsive` is the liveness-probe outcome for the least-recently-seen
entry of the destination bucket. -/
def observe (rt : RoutingTable) (peer : Nat) (lrsResponsive : Bool) : RoutingTable :=
  if peer = rt.localId then rt
  else
    let i := bucketIndex rt.localId peer
    let b := rt.buckets i
    if peer ∈ b then
      ⟨rt.localId, fun j => if j = i then b.erase peer ++ [peer] else rt.buckets j⟩
    else if b.length < K then
      ⟨rt.localId, fun j => if j = i then b ++ [peer] else rt.buckets j⟩
    else if lrsResponsive then rt
    else ⟨rt.localId, fun j => if j = i then b.tail ++ [peer] else rt.buckets j⟩

/-- Modelled from the spec: a finite sequence of `observe` calls, each with
its liveness-probe outcome. -/
def observeAll (rt : RoutingTable) (obs : List (Nat × Bool)) : RoutingTable :=
  obs.foldl (fun t ob => observe t ob.1 ob.2) rt

/-- The K-entry bucket invariant (spec section 3). -/
def BucketsBounded (rt : RoutingTable) : Prop := ∀ j, (rt.buckets j).length ≤ K

/-- Insert an element into a list, placing it after every element already
related to it (a stable insertion step for insertion sort). -/
def insertBy {α : Type} (r : α → α → Bool) (p : α) : List α → List α
  | [] => [p]
  | q :: rest => if r q p then q :: insertBy r p rest else p :: q :: rest

/-- Stable insertion sort by the Boolean relation `r`. -/
def sortBy {α : Type} (r : α → α → Bool) (l : List α) : List α :=
  l.foldl (fun acc x => insertBy r x acc) []

/-- Modelled from the spec: the XOR distance metric (spec section 4.5). -/
def xorDistance (a b : Nat) : Nat := a ^^^ b

/-- Modelled from the spec: all peers currently known to the routing table
over the B-bucket identifier space. -/
def allPeers (rt : RoutingTable) : List Nat := ((List.range B).map rt.buckets).flatten

/-- Modelled from the spec: `closest(address, count)` (spec section 4.5) —
up to `count` peers ordered by ascending XOR distance to `address`. -/
def closest (rt : RoutingTable) (addr count : Nat) : List Nat :=
  (sortBy (fun p q => decide (xorDistance addr p ≤ xorDistance addr q)) (allPeers rt)).take count

/-- A commit as the release scripts see it: the scripts read
`commit.commit.message` (PyGithub nesting); the message is the only field
used. -/
structure Commit where
  message : List Char

/-- The literal substring `BREAKING CHANGE` tested by the release scripts. -/
def breakingChangeMarker : List Char :=
  ['B', 'R', 'E', 'A', 'K', 'I', 'N', 'G', ' ', 'C', 'H', 'A', 'N', 'G', 'E']

/-- Python's `pat in s` substring test on character lists. -/
def containsSub (pat s : List Char) : Bool :=
  (List.range (s.length + 1)).any (fun i => pat.isPrefixOf (s.drop i))

/-- Embedded from `src/resources/scripts/list-numbered-prs.py`
(`has_breaking_change`): scan the commits in order; return True on the first
whose message has `'!'` in its first line (the prefix before the first
newline, Python `split('\n')[0]`) or contains `BREAKING CHANGE` anywhere;
otherwise False. -/
def has_breaking_change : List Commit → Bool
  | [] => false
  | commit :: rest =>
    if decide ('!' ∈ commit.message.takeWhile (fun ch => ch != '\n'))
        || containsSub breakingChangeMarker commit.message then true
    else has_breaking_change rest

/-- Embedded from `src/resources/scripts/list-safe-network-closed-prs.py`
(`has_breaking_change`, lines 8-13; textually identical to the copy in
list-numbered-prs.py). -/
def has_breaking_change_closed : List Commit → Bool
  | [] => false
  | commit :: rest =>
    if decide ('!' ∈ commit.message.takeWhile (fun ch => ch != '\n'))
        || containsSub breakingChangeMarker commit.message then true
    else has_breaking_change_closed rest

/-- Embedded from `src/resources/scripts/release-candidate-description.py`
(`has_breaking_change`, lines 9-14; textually identical to the copy in
list-numbered-prs.py). -/
def has_breaking_change_rc : List Commit → Bool
  | [] => false
  | commit :: rest =>
    if decide ('!' ∈ commit.message.takeWhile (fun ch => ch != '\n'))
        || containsSub breakingChangeMarker commit.message then true
    else has_breaking_change_rc rest

/-- Outcome of opening and reading a file in `read_commits_from_file`: either
the file's lines, or the `FileNotFoundError` / generic `Exception` cases its
two `except` clauses catch. -/
inductive ReadResult
  | content (lines : List (List Char))
  | fileNotFoundError
  | otherError

/-- Python `str.strip()` default whitespace set. -/
def isPySpace (c : Char) : Bool :=
  c == ' ' || c == '\t' || c == '\n' || c == '\x0b' || c == '\x0c' || c == '\r'

/-- Python `line.strip()`: drop leading and trailing whitespace. -/
def strip (l : List Char) : List Char :=
  ((l.dropWhile isPySpace).reverse.dropWhile isPySpace).reverse

/-- Embedded from `src/resources/scripts/find_prs.py` lines 60-62: the list
comprehension `[line.strip() for line in file if line.strip()]`, iterating
the file's lines in order. -/
def read_commits_loop : List (List Char) → List (List Char)
  | [] => []
  | line :: rest =>
    if (strip line).isEmpty then read_commits_loop rest
    else strip line :: read_commits_loop rest

/-- Embedded from `src/resources/scripts/find_prs.py` lines 50-67
(`read_commits_from_file`): the file system is a function from paths to a
`ReadResult`; a successful read yields the stripped non-blank lines, and
both `except FileNotFoundError` and `except Exception` return `[]`. -/
def read_commits_from_file (fs : String → ReadResult) (file_path : String) :
    List (List Char) :=
  match fs file_path with
  | .content lines => read_commits_loop lines
  | .fileNotFoundError => []
  | .otherError => []

/-- Python string `<=` on character lists: lexicographic by code point. -/
def strLe : List Char → List Char → Bool
  | [], _ => true
  | _ :: _, [] => false
  | a :: as, b :: bs => if a.toNat = b.toNat then strLe as bs else decide (a.toNat < b.toNat)

/-- Embedded from `src/resources/scripts/find_prs.py`: the pull-request
fields the script reads (`merged_at`, `number`, `title`). -/
structure PullRequest where
  merged_at : Option (List Char)
  number : Nat
  title : List Char

/-- Embedded from `src/resources/scripts/find_prs.py` main (lines 111-116):
a `pr_entry` dictionary `{date, commit, pr_number, pr_title}`. -/
structure PrEntry where
  date : List Char
  commitHash : List Char
  pr_number : Nat
  pr_title : List Char

/-- One line printed by `find_prs.py` main: either a dated merged-PR entry
(lines 125-126) or a "No merged PR found" message (lines 128-129). -/
inductive OutputLine
  | prLine (date commitHash : List Char) (pr_number : Nat) (pr_title : List Char)
  | noPrLine (commitHash : List Char)

/-- Embedded from `src/resources/scripts/find_prs.py` `format_date`: both the
strptime/strftime path (for canonical ISO-8601 input) and the fallback
`split('T')[0]` path take the prefix before `'T'`, or the whole string when
there is no `'T'`. -/
def format_date (iso_date_str : List Char) : List Char :=
  iso_date_str.takeWhile (fun c => c != 'T')

/-- Embedded from `src/resources/scripts/find_prs.py` main (lines 102-121):
the `pr_entry` records produced for one commit — one per PR of that commit
with a truthy `merged_at`, in API order. -/
def prEntriesFor (api : List Char → List PullRequest) (commit : List Char) : List PrEntry :=
  (api commit).filterMap (fun pr =>
    match pr.merged_at with
    | some merged => some ⟨format_date merged, commit, pr.number, pr.title⟩
    | none => none)

/-- Embedded from `src/resources/scripts/find_prs.py` main (lines 99-129):
the printed output — the merged-PR entries sorted by their formatted date
string (Python `sorted(key=lambda x: x['date'])`, a stable sort modelled by
stable insertion sort), then one "No merged PR found" line per commit that
yielded no merged-PR entry, in commit order. -/
def mainOutput (api : List Char → List PullRequest) (commits : List (List Char)) :
    List OutputLine :=
  (sortBy (fun e1 e2 => strLe e1.date e2.date)
      ((commits.map (prEntriesFor api)).flatten)).map
      (fun e => .prLine e.date e.commitHash e.pr_number e.pr_title)
    ++ (commits.filter (fun c => (prEntriesFor api c).isEmpty)).map (fun c => .noPrLine c)

/-- The formatted date of a printed line, when it is a merged-PR entry. -/
def lineDate : OutputLine → Option (List Char)
  | .prLine date _ _ _ => some date
  | .noPrLine _ => none

/-- Whether a printed line is a dated merged-PR entry. -/
def isPrLine : OutputLine → Bool
  | .prLine _ _ _ _ => true
  | .noPrLine _ => false

/-- Whether a printed line is a "No merged PR found" message. -/
def isNoPrLine : OutputLine → Bool
  | .prLine _ _ _ _ => false
  | .noPrLine _ => true

theorem hashBytes_pos (l : List Nat) : 1 ≤ hashBytes l := by
  cases l with
  | nil => simp [hashBytes]
  | cons b bs => simp [hashBytes]; omega

theorem hashBytes_injOn (xs : List Nat) : ∀ ys : List Nat, ValidBytes xs → ValidBytes ys →
    hashBytes xs = hashBytes ys → xs = ys := by
  induction xs with
  | nil =>
    intro ys _ hys h
    cases ys with
    | nil => rfl
    | cons b bs =>
      exfalso
      have := hashBytes_pos bs
      simp [hashBytes] at h
      omega
  | cons a as ih =>
    intro ys hxs hys h
    cases ys with
    | nil =>
      exfalso
      have := hashBytes_pos as
      simp [hashBytes] at h
      omega
    | cons b bs =>
      have ha : a < 256 := hxs a (by simp)
      have hb : b < 256 := hys b (by simp)
      simp only [hashBytes] at h
      have hab : a = b ∧ hashBytes as = hashBytes bs := by constructor <;> omega
      have htail : as = bs :=
        ih bs (fun x hx => hxs x (by simp [hx])) (fun x hx => hys x (by simp [hx])) hab.2
      rw [hab.1, htail]

theorem keystream_lt (key iv j : Nat) : keystream key iv j < 256 :=
  Nat.mod_lt _ (by omega)

theorem decrypt_encrypt (key iv : Nat) (bs : List Nat) (h : ValidBytes bs) :
    ∀ j, decryptFrom key iv j (encryptFrom key iv j bs) = bs := by
  induction bs with
  | nil => intro j; rfl
  | cons b bs ih =>
    intro j
    have hb : b < 256 := h b (by simp)
    have hk : keystream key iv j < 256 := keystream_lt key iv j
    simp only [encryptFrom, decryptFrom, List.cons.injEq]
    constructor
    · omega
    · exact ih (fun x hx => h x (by simp [hx])) (j + 1)

theorem encryptFrom_valid (key iv : Nat) (bs : List Nat) :
    ∀ j, ValidBytes (encryptFrom key iv j bs) := by
  induction bs with
  | nil => intro j b hb; simp [encryptFrom] at hb
  | cons b bs ih =>
    intro j x hx
    simp only [encryptFrom, List.mem_cons] at hx
    rcases hx with h | h
    · subst h; exact Nat.mod_lt _ (by omega)
    · exact ih (j + 1) x h

theorem encryptFrom_length (key iv : Nat) (bs : List Nat) :
    ∀ j, (encryptFrom key iv j bs).length = bs.length := by
  induction bs with
  | nil => intro j; rfl
  | cons b bs ih => intro j; simp [encryptFrom, ih (j + 1)]

theorem chunkBound_zero (size n : Nat) : chunkBound size n 0 = 0 := by
  simp [chunkBound]

theorem chunkBound_mono (size n i : Nat) : chunkBound size n i ≤ chunkBound size n (i + 1) :=
  Nat.div_le_div_right (Nat.mul_le_mul_right size (by omega))

theorem chunkBound_last (size n : Nat) (hn : 0 < n) : chunkBound size n n = size := by
  simp only [chunkBound]
  exact Nat.mul_div_cancel_left size hn

theorem flatten_chunkSlices_take (p : List Nat) (n : Nat) :
    ∀ k, ((List.range k).map (fun i =>
      (p.drop (chunkBound p.length n i)).take
        (chunkBound p.length n (i + 1) - chunkBound p.length n i))).flatten
      = p.take (chunkBound p.length n k) := by
  intro k
  induction k with
  | zero => simp [chunkBound_zero]
  | succ k ih =>
    rw [List.range_succ, List.map_append, List.flatten_append, ih]
    simp only [List.map_cons, List.map_nil, List.flatten_cons, List.flatten_nil, List.append_nil]
    have hmono := chunkBound_mono p.length n k
    have : chunkBound p.length n (k + 1)
        = chunkBound p.length n k + (chunkBound p.length n (k + 1) - chunkBound p.length n k) := by
      omega
    rw [this, List.take_add, Nat.add_sub_cancel_left]

theorem flatten_chunkSlices (p : List Nat) (n : Nat) (hn : 0 < n) :
    (chunkSlices p n).flatten = p := by
  unfold chunkSlices
  rw [flatten_chunkSlices_take p n n, chunkBound_last p.length n hn, List.take_length]

theorem length_chunkSlices (p : List Nat) (n : Nat) : (chunkSlices p n).length = n := by
  simp [chunkSlices]

theorem minChunkCount_le_chunkCount (size : Nat) : minChunkCount ≤ chunkCount size :=
  le_max_left _ _

theorem chunkCount_pos (size : Nat) : 0 < chunkCount size :=
  lt_of_lt_of_le (by decide) (minChunkCount_le_chunkCount size)

theorem chunkSlices_valid (p : List Nat) (n : Nat) (hp : ValidBytes p) :
    ∀ c ∈ chunkSlices p n, ValidBytes c := by
  intro c hc b hb
  simp only [chunkSlices, List.mem_map] at hc
  obtain ⟨i, _, hslice⟩ := hc
  subst hslice
  exact hp b (List.mem_of_mem_drop (List.mem_of_mem_take hb))

theorem getD_map_range {α β : Type} (l : List α) (f : α → β) (d : α) :
    (List.range l.length).map (fun i => f (l.getD i d)) = l.map f := by
  apply List.ext_getElem?
  intro i
  by_cases h : i < l.length
  · rw [List.getElem?_map, List.getElem?_map, List.getElem?_range h,
      List.getElem?_eq_getElem h]
    simp [List.getD_eq_getElem?_getD, List.getElem?_eq_getElem h]
  · rw [List.getElem?_map, List.getElem?_map,
      List.getElem?_eq_none (by simpa using Nat.le_of_not_lt h),
      List.getElem?_eq_none (Nat.le_of_not_lt h)]
    rfl

theorem getD_mem {α : Type} (l : List α) (i : Nat) (d : α) (h : i < l.length) :
    l.getD i d ∈ l := by
  rw [List.getD_eq_getElem?_getD, List.getElem?_eq_getElem h]
  exact List.getElem_mem h

theorem dataMapOf_ph (chunks : List (List Nat)) :
    (dataMapOf chunks).entries.map (fun e => e.plaintextHash) = chunks.map hashBytes := by
  simp only [dataMapOf, List.map_map]
  exact getD_map_range chunks hashBytes []

theorem selfEncryptChunks_valid (chunks : List (List Nat)) :
    ∀ c ∈ selfEncryptChunks chunks, ValidBytes c := by
  intro c hc
  simp only [selfEncryptChunks, List.mem_map] at hc
  obtain ⟨i, _, hci⟩ := hc
  subst hci
  exact encryptFrom_valid _ _ _ 0

theorem tryCandidates_store (chunks : List (List Nat))
    (hvalid : ∀ c ∈ chunks, ValidBytes c) (i : Nat) (hi : i < chunks.length) :
    tryCandidates [storeFetcher (selfEncryptChunks chunks)] (dataMapEntryOf chunks i)
      (chunkKeyIv chunks i).1 (chunkKeyIv chunks i).2 = some (chunks.getD i []) := by
  have hmem : cipherOf chunks i ∈ selfEncryptChunks chunks := by
    simp only [selfEncryptChunks, List.mem_map]
    exact ⟨i, List.mem_range.mpr hi, rfl⟩
  have hpred : (fun c => hashBytes c == hashBytes (cipherOf chunks i)) (cipherOf chunks i)
      = true := by simp
  have hsome : ((selfEncryptChunks chunks).find?
      (fun c => hashBytes c == hashBytes (cipherOf chunks i))).isSome :=
    List.find?_isSome.mpr ⟨_, hmem, hpred⟩
  obtain ⟨c, hc⟩ := Option.isSome_iff_exists.mp hsome
  have hcmem : c ∈ selfEncryptChunks chunks := List.mem_of_find?_eq_some hc
  have hchash : hashBytes c = hashBytes (cipherOf chunks i) := by
    have := List.find?_some hc
    simpa using this
  have hceq : c = cipherOf chunks i := by
    apply hashBytes_injOn c (cipherOf chunks i)
      (selfEncryptChunks_valid chunks c hcmem)
      (encryptFrom_valid _ _ _ 0) hchash
  have hchunkvalid : ValidBytes (chunks.getD i []) :=
    hvalid _ (getD_mem chunks i [] hi)
  have hdec : decryptFrom (chunkKeyIv chunks i).1 (chunkKeyIv chunks i).2 0
      (cipherOf chunks i) = chunks.getD i [] := by
    unfold cipherOf
    exact decrypt_encrypt _ _ _ hchunkvalid 0
  simp only [tryCandidates, storeFetcher, dataMapEntryOf, hc, hceq, hdec]
  rw [if_pos]
  simp [encryptFrom_length]

theorem downloadFrom_store (chunks : List (List Nat))
    (hvalid : ∀ c ∈ chunks, ValidBytes c) :
    ∀ k i, i + k ≤ chunks.length →
    downloadFrom [storeFetcher (selfEncryptChunks chunks)] (chunks.map hashBytes) i
        ((List.range' i k).map (dataMapEntryOf chunks))
      = .ok (((List.range' i k).map (fun j => chunks.getD j [])).flatten) := by
  intro k
  induction k with
  | zero => intro i _; rfl
  | succ k ih =>
    intro i hik
    rw [List.range'_succ i k 1]
    simp only [List.map_cons, List.flatten_cons]
    have hi : i < chunks.length := by omega
    have htry := tryCandidates_store chunks hvalid i hi
    have hkey : neighborKeyIv (chunks.map hashBytes) i = chunkKeyIv chunks i := rfl
    simp only [downloadFrom, hkey, htry]
    rw [ih (i + 1) (by omega)]

theorem isEmpty_false_of_ne_nil {α : Type} (l : List α) (h : l ≠ []) :
    l.isEmpty = false := by
  cases l with
  | nil => exact absurd rfl h
  | cons x xs => rfl

/-- C1: for every payload at least the minimum chunkable size (and made of
actual bytes), downloading the result of uploading it from a store holding
exactly the uploaded encrypted chunks returns the original payload:
`download(upload(payload)) == payload`. -/
theorem upload_download_roundtrip (p : List Nat) (hlen : minChunkableSize ≤ p.length)
    (hval : ValidBytes p) :
    ∃ dm store, upload p = .ok (dm, store) ∧ download dm [storeFetcher store] = .ok p := by
  have hne : p.isEmpty = false := by
    cases p with
    | nil => simp [minChunkableSize] at hlen
    | cons x xs => rfl
  have hup : upload p
      = .ok (dataMapOf (chunkSlices p (chunkCount p.length)),
             selfEncryptChunks (chunkSlices p (chunkCount p.length))) := by
    simp [upload, chunkPayload, hne, Except.map]
  refine ⟨_, _, hup, ?_⟩
  unfold download
  rw [dataMapOf_ph]
  show downloadFrom _ _ 0 (dataMapOf (chunkSlices p (chunkCount p.length))).entries = _
  simp only [dataMapOf]
  rw [List.range_eq_range']
  rw [downloadFrom_store (chunkSlices p (chunkCount p.length))
    (chunkSlices_valid p (chunkCount p.length) hval)
    (chunkSlices p (chunkCount p.length)).length 0 (by omega)]
  rw [← List.range_eq_range']
  have hid : (List.range (chunkSlices p (chunkCount p.length)).length).map
      (fun j => (chunkSlices p (chunkCount p.length)).getD j [])
      = chunkSlices p (chunkCount p.length) := by
    simpa using getD_map_range (chunkSlices p (chunkCount p.length)) id []
  rw [hid, flatten_chunkSlices p (chunkCount p.length) (chunkCount_pos p.length)]

/-- Witness for C1 at the concrete payload `[10, 20, 30]`. -/
theorem upload_download_roundtrip_witness :
    ∃ dm store, upload [10, 20, 30] = .ok (dm, store) ∧
      download dm [storeFetcher store] = .ok [10, 20, 30] :=
  upload_download_roundtrip [10, 20, 30] (by decide) (by decide)

/-- C2: `upload` is deterministic (convergent): encoding the same payload
twice yields the same result — in particular identical DataMaps and identical
lists of ContentAddresses (the hashes of the encrypted chunks). -/
theorem upload_deterministic (p1 p2 : List Nat) (h : p1 = p2) :
    upload p1 = upload p2 ∧
    (upload p1).map (fun r => r.1) = (upload p2).map (fun r => r.1) ∧
    (upload p1).map (fun r => r.2.map hashBytes)
      = (upload p2).map (fun r => r.2.map hashBytes) := by
  subst h
  exact ⟨rfl, rfl, rfl⟩

/-- Witness for C2 at the concrete payload `[1, 2, 3]`. -/
theorem upload_deterministic_witness :
    upload [1, 2, 3] = upload [1, 2, 3] ∧
    (upload [1, 2, 3]).map (fun r => r.1) = (upload [1, 2, 3]).map (fun r => r.1) ∧
    (upload [1, 2, 3]).map (fun r => r.2.map hashBytes)
      = (upload [1, 2, 3]).map (fun r => r.2.map hashBytes) :=
  upload_deterministic [1, 2, 3] [1, 2, 3] rfl

/-- C7: the Chunker rejects the empty payload with `EmptyInputError`, and for
every non-empty payload it produces an ordered sequence of at least 3 chunks
whose in-order concatenation is exactly the payload (no gaps, no overlaps,
each byte covered exactly once). -/
theorem chunker_contract :
    chunkPayload [] = .error .emptyInputError ∧
    ∀ p : List Nat, p ≠ [] → ∃ cs, chunkPayload p = .ok cs ∧
      3 ≤ cs.length ∧ cs.flatten = p := by
  refine ⟨rfl, ?_⟩
  intro p hp
  have hne : p.isEmpty = false := by
    cases p with
    | nil => exact absurd rfl hp
    | cons x xs => rfl
  refine ⟨chunkSlices p (chunkCount p.length), ?_, ?_, ?_⟩
  · simp [chunkPayload, hne]
  · rw [length_chunkSlices]
    exact minChunkCount_le_chunkCount p.length
  · exact flatten_chunkSlices p (chunkCount p.length) (chunkCount_pos p.length)

/-- Witness for C7 at the concrete payload `[1, 2, 3]`. -/
theorem chunker_contract_witness :
    chunkPayload [] = .error .emptyInputError ∧
    ∃ cs, chunkPayload [1, 2, 3] = .ok cs ∧ 3 ≤ cs.length ∧ cs.flatten = [1, 2, 3] :=
  ⟨chunker_contract.1, chunker_contract.2 [1, 2, 3] (by decide)⟩

theorem getD_map_hash (chunks : List (List Nat)) (j : Nat) (hj : j < chunks.length) :
    (chunks.map hashBytes).getD j 0 = hashBytes (chunks.getD j []) := by
  rw [List.getD_eq_getElem?_getD, List.getD_eq_getElem?_getD, List.getElem?_map,
    List.getElem?_eq_getElem hj]
  rfl

theorem prevIndex_lt (n i : Nat) (hn : 0 < n) : prevIndex n i < n :=
  Nat.mod_lt _ hn

theorem nextIndex_lt (n i : Nat) (hn : 0 < n) : nextIndex n i < n :=
  Nat.mod_lt _ hn

theorem prevIndex_ne (n i : Nat) (hn : 2 ≤ n) (hi : i < n) : prevIndex n i ≠ i := by
  unfold prevIndex
  rcases Nat.eq_zero_or_pos i with h0 | hpos
  · subst h0
    rw [Nat.zero_add, Nat.mod_eq_of_lt (by omega)]
    omega
  · have : i + n - 1 = (i - 1) + n := by omega
    rw [this, Nat.add_mod_right, Nat.mod_eq_of_lt (by omega)]
    omega

theorem nextIndex_ne (n i : Nat) (hn : 2 ≤ n) (hi : i < n) : nextIndex n i ≠ i := by
  unfold nextIndex
  rcases Nat.lt_or_ge (i + 1) n with hlt | hge
  · rw [Nat.mod_eq_of_lt hlt]
    omega
  · have : i + 1 = n := by omega
    rw [this, Nat.mod_self]
    omega

theorem chunkKeyIv_eq_deriveKeyIv (chunks : List (List Nat)) (n i : Nat)
    (hlen : chunks.length = n) (hn : 0 < n) :
    chunkKeyIv chunks i
      = deriveKeyIv (hashBytes (chunks.getD (prevIndex n i) []))
          (hashBytes (chunks.getD (nextIndex n i) [])) := by
  unfold chunkKeyIv neighborKeyIv
  rw [List.length_map, hlen,
    getD_map_hash chunks _ (by rw [hlen]; exact prevIndex_lt n i hn),
    getD_map_hash chunks _ (by rw [hlen]; exact nextIndex_lt n i hn)]

/-- C3: for every chunk sequence of count at least 3 and every index `i`, the
derived `(key_i, iv_i)` depends only on the plaintext hashes of the cyclic
neighbors `i-1` and `i+1`, never on chunk `i` itself: mutating any chunk
other than the two neighbors (in particular chunk `i` itself) leaves the
derived key/iv unchanged, while changing the bytes of either neighbor
changes it. -/
theorem key_derivation_neighbors_only (chunks chunks' : List (List Nat)) (i : Nat)
    (hn : 3 ≤ chunks.length) (hlen : chunks'.length = chunks.length)
    (hi : i < chunks.length) :
    ((∀ j, j < chunks.length → j ≠ i → chunks'.getD j [] = chunks.getD j []) →
      chunkKeyIv chunks' i = chunkKeyIv chunks i) ∧
    (chunks'.getD (prevIndex chunks.length i) []
        ≠ chunks.getD (prevIndex chunks.length i) [] →
      ValidBytes (chunks.getD (prevIndex chunks.length i) []) →
      ValidBytes (chunks'.getD (prevIndex chunks.length i) []) →
      chunkKeyIv chunks' i ≠ chunkKeyIv chunks i) ∧
    (chunks'.getD (nextIndex chunks.length i) []
        ≠ chunks.getD (nextIndex chunks.length i) [] →
      ValidBytes (chunks.getD (nextIndex chunks.length i) []) →
      ValidBytes (chunks'.getD (nextIndex chunks.length i) []) →
      chunkKeyIv chunks' i ≠ chunkKeyIv chunks i) := by
  have hn0 : 0 < chunks.length := by omega
  have hkc := chunkKeyIv_eq_deriveKeyIv chunks chunks.length i rfl hn0
  have hkc' := chunkKeyIv_eq_deriveKeyIv chunks' chunks.length i hlen hn0
  refine ⟨?_, ?_, ?_⟩
  · intro hfix
    rw [hkc, hkc',
      hfix _ (prevIndex_lt _ i hn0) (prevIndex_ne _ i (by omega) hi),
      hfix _ (nextIndex_lt _ i hn0) (nextIndex_ne _ i (by omega) hi)]
  · intro hdiff hv hv' heq
    rw [hkc, hkc'] at heq
    unfold deriveKeyIv at heq
    have hfst := congrArg Prod.fst heq
    simp only at hfst
    have := (Nat.pair_eq_pair.mp hfst).1
    exact hdiff (hashBytes_injOn _ _ hv' hv this)
  · intro hdiff hv hv' heq
    rw [hkc, hkc'] at heq
    unfold deriveKeyIv at heq
    have hfst := congrArg Prod.fst heq
    simp only at hfst
    have := (Nat.pair_eq_pair.mp hfst).2
    exact hdiff (hashBytes_injOn _ _ hv' hv this)

/-- Witness for C3 on the concrete 3-chunk sequence `[[0],[1],[2]]` at index
1 (whose cyclic neighbors are chunks 0 and 2): mutating chunk 1 itself keeps
the derived key/iv, mutating chunk 0 or chunk 2 changes it. -/
theorem key_derivation_neighbors_only_witness :
    chunkKeyIv [[0], [9], [2]] 1 = chunkKeyIv [[0], [1], [2]] 1 ∧
    chunkKeyIv [[7], [1], [2]] 1 ≠ chunkKeyIv [[0], [1], [2]] 1 ∧
    chunkKeyIv [[0], [1], [8]] 1 ≠ chunkKeyIv [[0], [1], [2]] 1 :=
  ⟨(key_derivation_neighbors_only [[0], [1], [2]] [[0], [9], [2]] 1 (by decide) rfl
      (by decide)).1 (by decide),
   (key_derivation_neighbors_only [[0], [1], [2]] [[7], [1], [2]] 1 (by decide) rfl
      (by decide)).2.1 (by decide) (by decide) (by decide),
   (key_derivation_neighbors_only [[0], [1], [2]] [[0], [1], [8]] 1 (by decide) rfl
      (by decide)).2.2 (by decide) (by decide) (by decide)⟩

theorem tryCandidates_some_verified (fetchers : List (Nat → Option (List Nat)))
    (e : DataMapEntry) (key iv : Nat) (plain : List Nat)
    (h : tryCandidates fetchers e key iv = some plain) :
    hashBytes plain = e.plaintextHash ∧ plain.length = e.plaintextSize := by
  induction fetchers with
  | nil => simp [tryCandidates] at h
  | cons f rest ih =>
    simp only [tryCandidates] at h
    split at h
    · exact ih h
    · split at h
      · cases h
        rename_i hcond
        simp only [Bool.and_eq_true, beq_iff_eq] at hcond
        exact hcond
      · exact ih h

theorem downloadFrom_shape (fetchers : List (Nat → Option (List Nat))) (phs : List Nat) :
    ∀ (entries : List DataMapEntry) (i : Nat),
    downloadFrom fetchers phs i entries = .error .reconstructionError ∨
    ∃ parts : List (List Nat), downloadFrom fetchers phs i entries = .ok parts.flatten ∧
      parts.length = entries.length ∧
      ∀ j, j < entries.length →
        hashBytes (parts.getD j []) = (entries.getD j defaultEntry).plaintextHash ∧
        (parts.getD j []).length = (entries.getD j defaultEntry).plaintextSize := by
  intro entries
  induction entries with
  | nil =>
    intro i
    right
    exact ⟨[], rfl, rfl, fun j hj => absurd hj (by simp)⟩
  | cons e rest ih =>
    intro i
    cases htry : tryCandidates fetchers e (neighborKeyIv phs i).1 (neighborKeyIv phs i).2 with
    | none =>
      left
      simp [downloadFrom, htry]
    | some plain =>
      rcases ih (i + 1) with herr | ⟨parts, hok, hplen, hprops⟩
      · left
        simp [downloadFrom, htry, herr]
      · right
        refine ⟨plain :: parts, ?_, by simp [hplen], ?_⟩
        · simp [downloadFrom, htry, hok]
        · intro j hj
          cases j with
          | zero =>
            simp only [List.getD_cons_zero]
            exact tryCandidates_some_verified fetchers e _ _ plain htry
          | succ k =>
            simp only [List.getD_cons_succ]
            exact hprops k (by simp at hj; omega)

theorem downloadFrom_exhausted (fetchers : List (Nat → Option (List Nat))) (phs : List Nat) :
    ∀ (entries : List DataMapEntry) (i r : Nat), r < entries.length →
    tryCandidates fetchers (entries.getD r defaultEntry)
      (neighborKeyIv phs (i + r)).1 (neighborKeyIv phs (i + r)).2 = none →
    downloadFrom fetchers phs i entries = .error .reconstructionError := by
  intro entries
  induction entries with
  | nil => intro i r hr; simp at hr
  | cons e rest ih =>
    intro i r hr hnone
    cases r with
    | zero =>
      simp only [List.getD_cons_zero, Nat.add_zero] at hnone
      simp [downloadFrom, hnone]
    | succ rr =>
      cases htry : tryCandidates fetchers e (neighborKeyIv phs i).1 (neighborKeyIv phs i).2 with
      | none => simp [downloadFrom, htry]
      | some plain =>
        have hrec : downloadFrom fetchers phs (i + 1) rest = .error .reconstructionError := by
          apply ih (i + 1) rr (by simp at hr; omega)
          simp only [List.getD_cons_succ] at hnone
          have : i + 1 + rr = i + (rr + 1) := by omega
          rw [this]
          exact hnone
        simp [downloadFrom, htry, hrec]

/-- C6: `download(DataMap)` either fails with `ReconstructionError` or returns
the complete payload — the concatenation of one verified plaintext chunk per
DataMap entry, each matching its entry's stored plaintext hash and size; and
if the fetch candidates for any single entry are exhausted, the whole
download aborts with `ReconstructionError` (no partial payload is ever
returned). -/
theorem download_total_or_aborts (dm : DataMap) (fetchers : List (Nat → Option (List Nat))) :
    (download dm fetchers = .error .reconstructionError ∨
      ∃ parts : List (List Nat), download dm fetchers = .ok parts.flatten ∧
        parts.length = dm.entries.length ∧
        ∀ j, j < dm.entries.length →
          hashBytes (parts.getD j []) = (dm.entries.getD j defaultEntry).plaintextHash ∧
          (parts.getD j []).length = (dm.entries.getD j defaultEntry).plaintextSize) ∧
    (∀ i, i < dm.entries.length →
      tryCandidates fetchers (dm.entries.getD i defaultEntry)
        (entryKeyIv dm i).1 (entryKeyIv dm i).2 = none →
      download dm fetchers = .error .reconstructionError) := by
  constructor
  · exact downloadFrom_shape fetchers _ dm.entries 0
  · intro i hi hnone
    apply downloadFrom_exhausted fetchers _ dm.entries 0 i hi
    simpa using hnone

/-- Witness for C6: a DataMap with one entry and no fetch candidates at all —
the single entry's candidates are trivially exhausted, so the download aborts
with `ReconstructionError`. -/
theorem download_total_or_aborts_witness :
    download ⟨[⟨0, 0, 0⟩]⟩ [] = .error .reconstructionError :=
  (download_total_or_aborts ⟨[⟨0, 0, 0⟩]⟩ []).2 0 (by decide) rfl

theorem observe_preserves_bounded (rt : RoutingTable) (peer : Nat) (alive : Bool)
    (h : BucketsBounded rt) : BucketsBounded (observe rt peer alive) := by
  intro j
  unfold observe
  by_cases hself : peer = rt.localId
  · rw [if_pos hself]; exact h j
  · rw [if_neg hself]
    simp only
    by_cases hmem : peer ∈ rt.buckets (bucketIndex rt.localId peer)
    · rw [if_pos hmem]
      dsimp only
      by_cases hj : j = bucketIndex rt.localId peer
      · subst hj
        rw [if_pos rfl]
        simp only [List.length_append, List.length_cons, List.length_nil]
        have he := List.length_erase_of_mem hmem
        have hne : 0 < (rt.buckets (bucketIndex rt.localId peer)).length :=
          List.length_pos.mpr (List.ne_nil_of_mem hmem)
        have := h (bucketIndex rt.localId peer)
        omega
      · simp only [if_neg hj]
        exact h j
    · rw [if_neg hmem]
      by_cases hlen : (rt.buckets (bucketIndex rt.localId peer)).length < K
      · rw [if_pos hlen]
        dsimp only
        by_cases hj : j = bucketIndex rt.localId peer
        · subst hj
          rw [if_pos rfl]
          simp only [List.length_append, List.length_cons, List.length_nil]
          omega
        · simp only [if_neg hj]
          exact h j
      · rw [if_neg hlen]
        by_cases halive : alive = true
        · rw [if_pos halive]; exact h j
        · rw [if_neg halive]
          dsimp only
          by_cases hj : j = bucketIndex rt.localId peer
          · subst hj
            rw [if_pos rfl]
            simp only [List.length_append, List.length_cons, List.length_nil, List.length_tail]
            have := h (bucketIndex rt.localId peer)
            have hK : 0 < K := by decide
            omega
          · simp only [if_neg hj]
            exact h j

theorem observeAll_preserves_bounded (obs : List (Nat × Bool)) :
    ∀ rt : RoutingTable, BucketsBounded rt → BucketsBounded (observeAll rt obs) := by
  induction obs with
  | nil => intro rt h; exact h
  | cons ob rest ih =>
    intro rt h
    exact ih (observe rt ob.1 ob.2) (observe_preserves_bounded rt ob.1 ob.2 h)

/-- C4: after every finite sequence of `observe` calls (each with any
liveness-probe outcome) starting from an empty RoutingTable, no bucket holds
more than K peer entries. -/
theorem routing_buckets_never_exceed_K (localId : Nat) (obs : List (Nat × Bool)) (j : Nat) :
    ((observeAll (emptyTable localId) obs).buckets j).length ≤ K :=
  observeAll_preserves_bounded obs (emptyTable localId)
    (fun _ => by simp [emptyTable, K]) j

theorem mem_insertBy {α : Type} (r : α → α → Bool) (p x : α) :
    ∀ l : List α, x ∈ insertBy r p l ↔ x = p ∨ x ∈ l := by
  intro l
  induction l with
  | nil => simp [insertBy]
  | cons q rest ih =>
    simp only [insertBy]
    by_cases h : r q p = true
    · rw [if_pos h]
      simp only [List.mem_cons, ih]
      tauto
    · rw [if_neg h]
      simp only [List.mem_cons]

theorem pairwise_insertBy {α : Type} (r : α → α → Bool)
    (htotal : ∀ a b, r a b = true ∨ r b a = true)
    (htrans : ∀ a b c, r a b = true → r b c = true → r a c = true) (p : α) :
    ∀ l : List α, l.Pairwise (fun a b => r a b = true) →
      (insertBy r p l).Pairwise (fun a b => r a b = true) := by
  intro l
  induction l with
  | nil => intro _; simp [insertBy]
  | cons q rest ih =>
    intro hpw
    rw [List.pairwise_cons] at hpw
    obtain ⟨hq, hrest⟩ := hpw
    simp only [insertBy]
    by_cases h : r q p = true
    · rw [if_pos h]
      rw [List.pairwise_cons]
      refine ⟨?_, ih hrest⟩
      intro y hy
      rcases (mem_insertBy r p y rest).mp hy with rfl | hmem
      · exact h
      · exact hq y hmem
    · rw [if_neg h]
      have hpq : r p q = true := by
        rcases htotal p q with h1 | h2
        · exact h1
        · exact absurd h2 h
      rw [List.pairwise_cons]
      refine ⟨?_, List.pairwise_cons.mpr ⟨hq, hrest⟩⟩
      intro y hy
      rcases List.mem_cons.mp hy with rfl | hmem
      · exact hpq
      · exact htrans p q y hpq (hq y hmem)

theorem pairwise_sortBy_aux {α : Type} (r : α → α → Bool)
    (htotal : ∀ a b, r a b = true ∨ r b a = true)
    (htrans : ∀ a b c, r a b = true → r b c = true → r a c = true) :
    ∀ (l acc : List α), acc.Pairwise (fun a b => r a b = true) →
      (l.foldl (fun acc x => insertBy r x acc) acc).Pairwise (fun a b => r a b = true) := by
  intro l
  induction l with
  | nil => intro acc h; exact h
  | cons x rest ih =>
    intro acc h
    exact ih (insertBy r x acc) (pairwise_insertBy r htotal htrans x acc h)

theorem pairwise_sortBy {α : Type} (r : α → α → Bool)
    (htotal : ∀ a b, r a b = true ∨ r b a = true)
    (htrans : ∀ a b c, r a b = true → r b c = true → r a c = true) (l : List α) :
    (sortBy r l).Pairwise (fun a b => r a b = true) :=
  pairwise_sortBy_aux r htotal htrans l [] (by simp)

/-- C5: for every routing table, address and count `k`, `closest(address, k)`
returns at most `k` peers, and the returned list is ordered by non-decreasing
XOR distance from the address. -/
theorem closest_at_most_k_and_sorted (rt : RoutingTable) (addr k : Nat) :
    (closest rt addr k).length ≤ k ∧
    (closest rt addr k).Pairwise (fun p q => xorDistance addr p ≤ xorDistance addr q) := by
  constructor
  · exact List.length_take_le k _
  · apply List.Pairwise.sublist (List.take_sublist k _)
    have hp := pairwise_sortBy (fun p q => decide (xorDistance addr p ≤ xorDistance addr q))
      (fun a b => by
        rcases Nat.le_total (xorDistance addr a) (xorDistance addr b) with h | h
        · left; simpa using h
        · right; simpa using h)
      (fun a b c hab hbc => by
        simp only [decide_eq_true_eq] at hab hbc ⊢
        omega)
      (allPeers rt)
    exact hp.imp (fun h => by simpa using h)

theorem containsSub_iff (pat s : List Char) :
    containsSub pat s = true ↔ ∃ pre post, s = pre ++ pat ++ post := by
  unfold containsSub
  rw [List.any_eq_true]
  constructor
  · rintro ⟨i, _, hpre⟩
    rw [ List.isPrefixOf_iff_prefix] at hpre
    obtain ⟨t, ht⟩ := hpre
    refine ⟨s.take i, t, ?_⟩
    rw [List.append_assoc, ht, List.take_append_drop]
  · rintro ⟨pre, post, hs⟩
    refine ⟨pre.length, ?_, ?_⟩
    · rw [List.mem_range, hs]
      simp only [List.length_append]
      omega
    · rw [ List.isPrefixOf_iff_prefix, hs, List.append_assoc, List.drop_left]
      exact ⟨post, rfl⟩

/-- C8: `has_breaking_change` returns True exactly when some commit's message
has `'!'` in its first line or contains `BREAKING CHANGE` anywhere; it
returns False on the empty list; and the three textually identical copies in
the three release scripts compute the same function. -/
theorem has_breaking_change_spec :
    (∀ commits : List Commit,
      (has_breaking_change commits = true ↔
        ∃ c ∈ commits, '!' ∈ c.message.takeWhile (fun ch => ch != '\n') ∨
          ∃ pre post, c.message = pre ++ breakingChangeMarker ++ post)) ∧
    has_breaking_change [] = false ∧
    (∀ commits : List Commit,
      has_breaking_change_closed commits = has_breaking_change commits ∧
      has_breaking_change_rc commits = has_breaking_change commits) := by
  refine ⟨?_, rfl, ?_⟩
  · intro commits
    induction commits with
    | nil => simp [has_breaking_change]
    | cons c rest ih =>
      simp only [has_breaking_change]
      by_cases hcond : (decide ('!' ∈ c.message.takeWhile (fun ch => ch != '\n'))
          || containsSub breakingChangeMarker c.message) = true
      · rw [if_pos hcond]
        simp only [Bool.or_eq_true, decide_eq_true_eq, containsSub_iff] at hcond
        constructor
        · intro _
          exact ⟨c, by simp, hcond⟩
        · intro _
          rfl
      · rw [if_neg hcond]
        simp only [Bool.or_eq_true, decide_eq_true_eq, containsSub_iff] at hcond
        rw [ih]
        constructor
        · rintro ⟨x, hx, hprop⟩
          exact ⟨x, by simp [hx], hprop⟩
        · rintro ⟨x, hx, hprop⟩
          rcases List.mem_cons.mp hx with rfl | hmem
          · rcases hprop with h1 | h2
            · exact absurd (Or.inl h1) hcond
            · exact absurd (Or.inr h2) hcond
          · exact ⟨x, hmem, hprop⟩
  · intro commits
    induction commits with
    | nil => exact ⟨rfl, rfl⟩
    | cons c rest ih =>
      constructor
      · simp only [has_breaking_change, has_breaking_change_closed, ih.1]
      · simp only [has_breaking_change, has_breaking_change_rc, ih.2]

theorem read_commits_loop_eq (lines : List (List Char)) :
    read_commits_loop lines = (lines.map strip).filter (fun s => !s.isEmpty) := by
  induction lines with
  | nil => rfl
  | cons line rest ih =>
    simp only [read_commits_loop, List.map_cons, List.filter_cons]
    cases h : (strip line).isEmpty with
    | true => simpa [h] using ih
    | false => simpa [h] using ih

/-- C9: `read_commits_from_file` never propagates an exception — it is a
total function of the file-system outcome: when the file is readable it
returns the file's lines stripped of surrounding whitespace with blank lines
removed, in file order, and in both exception cases (file missing, any other
reading error) it returns the empty list. -/
theorem read_commits_from_file_spec (fs : String → ReadResult) (file_path : String) :
    (∀ lines, fs file_path = .content lines →
      read_commits_from_file fs file_path
        = (lines.map strip).filter (fun s => !s.isEmpty)) ∧
    (fs file_path = .fileNotFoundError ∨ fs file_path = .otherError →
      read_commits_from_file fs file_path = []) := by
  constructor
  · intro lines h
    unfold read_commits_from_file
    rw [h]
    exact read_commits_loop_eq lines
  · intro h
    unfold read_commits_from_file
    rcases h with h | h <;> rw [h]

/-- Witness for C9 on a concrete three-line file (one line needing a strip,
one blank line) and on a missing file. -/
theorem read_commits_from_file_spec_witness :
    read_commits_from_file
        (fun _ => .content [[' ', 'a', 'b', '\n'], [' ', '\n'], ['c', '\n']]) "commits"
      = [['a', 'b'], ['c']] ∧
    read_commits_from_file (fun _ => .fileNotFoundError) "commits" = [] := by
  constructor
  · exact ((read_commits_from_file_spec
        (fun _ => .content [[' ', 'a', 'b', '\n'], [' ', '\n'], ['c', '\n']]) "commits").1
        [[' ', 'a', 'b', '\n'], [' ', '\n'], ['c', '\n']] rfl).trans (by decide)
  · exact (read_commits_from_file_spec (fun _ => .fileNotFoundError) "commits").2 (Or.inl rfl)

theorem strLe_total : ∀ a b : List Char, strLe a b = true ∨ strLe b a = true := by
  intro a
  induction a with
  | nil => intro b; left; rfl
  | cons x xs ih =>
    intro b
    cases b with
    | nil => right; rfl
    | cons y ys =>
      simp only [strLe]
      by_cases h : x.toNat = y.toNat
      · rw [if_pos h, if_pos h.symm]
        exact ih ys
      · rw [if_neg h, if_neg (fun hh => h hh.symm)]
        rcases Nat.lt_or_ge x.toNat y.toNat with hlt | hge
        · left; simpa using hlt
        · right; simp only [decide_eq_true_eq]; omega

theorem strLe_trans : ∀ a b c : List Char,
    strLe a b = true → strLe b c = true → strLe a c = true := by
  intro a
  induction a with
  | nil => intro b c _ _; rfl
  | cons x xs ih =>
    intro b c hab hbc
    cases b with
    | nil => simp [strLe] at hab
    | cons y ys =>
      cases c with
      | nil => simp [strLe] at hbc
      | cons z zs =>
        simp only [strLe] at hab hbc ⊢
        by_cases hxy : x.toNat = y.toNat
        · rw [if_pos hxy] at hab
          by_cases hyz : y.toNat = z.toNat
          · rw [if_pos hyz] at hbc
            rw [if_pos (hxy.trans hyz)]
            exact ih ys zs hab hbc
          · rw [if_neg hyz] at hbc
            have hy : y.toNat < z.toNat := by simpa using hbc
            rw [if_neg (by omega)]
            simp only [decide_eq_true_eq]
            omega
        · rw [if_neg hxy] at hab
          have hx : x.toNat < y.toNat := by simpa using hab
          by_cases hyz : y.toNat = z.toNat
          · rw [if_neg (by omega)]
            simp only [decide_eq_true_eq]
            omega
          · rw [if_neg hyz] at hbc
            have hy : y.toNat < z.toNat := by simpa using hbc
            rw [if_neg (by omega)]
            simp only [decide_eq_true_eq]
            omega

theorem filterMap_lineDate_prLines (l : List PrEntry) :
    (l.map (fun e => OutputLine.prLine e.date e.commitHash e.pr_number e.pr_title)).filterMap
        lineDate
      = l.map (fun e => e.date) := by
  induction l with
  | nil => rfl
  | cons e rest ih => simp [lineDate, ih]

theorem filterMap_lineDate_noPrLines (l : List (List Char)) :
    (l.map (fun c => OutputLine.noPrLine c)).filterMap lineDate = [] := by
  induction l with
  | nil => rfl
  | cons c rest ih => simp [lineDate, ih]

/-- C10: in `find_prs.py`'s main, whatever the order of commit hashes in the
input file, the dated merged-PR entries are printed in non-decreasing order
of their formatted date string, and every "No merged PR found" line is
printed after all dated PR entries. -/
theorem find_prs_output_ordered (api : List Char → List PullRequest)
    (commits : List (List Char)) :
    ((mainOutput api commits).filterMap lineDate).Pairwise
      (fun d1 d2 => strLe d1 d2 = true) ∧
    ∃ prPart noPrPart, mainOutput api commits = prPart ++ noPrPart ∧
      (∀ l ∈ prPart, isPrLine l = true) ∧ (∀ l ∈ noPrPart, isNoPrLine l = true) := by
  constructor
  · unfold mainOutput
    rw [List.filterMap_append, filterMap_lineDate_prLines, filterMap_lineDate_noPrLines,
      List.append_nil]
    rw [List.pairwise_map]
    exact pairwise_sortBy (fun e1 e2 => strLe e1.date e2.date)
      (fun a b => strLe_total a.date b.date)
      (fun a b c hab hbc => strLe_trans a.date b.date c.date hab hbc)
      ((commits.map (prEntriesFor api)).flatten)
  · refine ⟨_, _, rfl, ?_, ?_⟩
    · intro l hl
      rw [List.mem_map] at hl
      obtain ⟨e, _, he⟩ := hl
      rw [← he]
      rfl
    · intro l hl
      rw [List.mem_map] at hl
      obtain ⟨c, _, hc⟩ := hl
      rw [← hc]
      rfl
